import Mathlib

/-!
Shallow embedding of a minimal browser-engine core (CSS cascade, style tree,
box tree, block layout) and proofs about it.

Modelling conventions:
* Rust `String`/`&str` are Lean `String`; `HashMap<String, V>` is modelled by
  its lookup function or an association list, `HashSet` by a list queried only
  through membership.
* `f32` px quantities are modelled as rationals (`Rat`): the source only adds,
  subtracts, halves and compares them.
* A Rust `panic!` is modelled by returning `none` from an `Option`-valued
  function.
-/

/-! ## css.rs: data structures -/

/-- Embeds css.rs `Unit` (only `Px`). Renamed: `Unit` is taken by core Lean. -/
inductive CssUnit where
  | Px
  deriving DecidableEq

/-- Embeds css.rs `Color` (four `u8` channels; the claims never overflow them,
so plain naturals suffice). -/
structure Color where
  r : Nat
  g : Nat
  b : Nat
  a : Nat
  deriving DecidableEq

/-- Embeds css.rs `Value`. -/
inductive Value where
  | Keyword (s : String)
  | Length (v : Rat) (u : CssUnit)
  | ColorValue (c : Color)
  deriving DecidableEq

/-- Embeds css.rs `Value::to_px`: the size of a length in px, zero for
non-lengths. -/
def Value.to_px : Value → Rat
  | Value.Length f CssUnit.Px => f
  | _ => 0

/-- Embeds css.rs `SimpleSelector`. The field `class` is a Lean keyword and is
renamed `classList`. -/
structure SimpleSelector where
  tag_name : Option String
  id : Option String
  classList : List String
  deriving DecidableEq

/-- Embeds css.rs `Selector` (only the `Simple` variant exists). -/
inductive Selector where
  | Simple (s : SimpleSelector)
  deriving DecidableEq

/-- Embeds css.rs `Declaration`. -/
structure Declaration where
  name : String
  value : Value
  deriving DecidableEq

/-- Embeds css.rs `Rule`. -/
structure Rule where
  selectors : List Selector
  declarations : List Declaration
  deriving DecidableEq

/-- Embeds css.rs `Stylesheet`. -/
structure Stylesheet where
  rules : List Rule
  deriving DecidableEq

/-- Embeds css.rs `Specificity = (usize, usize, usize)`. -/
abbrev Specificity := Nat × Nat × Nat

/-- Embeds css.rs `Selector::specificity`: id count, class count, tag count. -/
def Selector.specificity : Selector → Specificity
  | Selector.Simple simple =>
      (simple.id.toList.length, simple.classList.length, simple.tag_name.toList.length)

/-- The strict lexicographic order on specificity triples: Rust's derived
`Ord` on `(usize, usize, usize)`, as used by `sort_by`/`sort_by_key`. -/
def specLt (a b : Specificity) : Prop :=
  a.1 < b.1 ∨ (a.1 = b.1 ∧ (a.2.1 < b.2.1 ∨ (a.2.1 = b.2.1 ∧ a.2.2 < b.2.2)))

instance (a b : Specificity) : Decidable (specLt a b) := by
  unfold specLt
  infer_instance

/-! ## dom.rs: data structures and accessors -/

/-- Embeds dom.rs `Element` (imported by style.rs as `ElementData`): tag name
plus the attribute map, modelled as an association list with unique keys read
only through `attr`. -/
structure ElementData where
  tag_name : String
  attributes : List (String × String)

/-- `HashMap::get` on the attribute map. -/
def ElementData.attr (element : ElementData) (key : String) : Option String :=
  (element.attributes.find? (fun p => p.1 = key)).map (fun p => p.2)

/-- Embeds dom.rs `Element::id`. -/
def ElementData.id (element : ElementData) : Option String :=
  element.attr "id"

/-- Rust `str::split(' ')` on a character list: the (possibly empty) segments
between the occurrences of the space character. `"".split(' ')` yields one
empty segment, and two adjacent spaces enclose an empty segment. -/
def splitSp : List Char → List (List Char)
  | [] => [[]]
  | c :: rest =>
      match splitSp rest with
      | t :: ts => if c = ' ' then [] :: t :: ts else (c :: t) :: ts
      | [] => if c = ' ' then [[], []] else [[c]]

/-- Embeds dom.rs `Element::classes`: split the "class" attribute on the space
character (the `HashSet` it returns is queried only through `contains`, so a
list stands for it); empty when the attribute is absent. -/
def ElementData.classes (element : ElementData) : List String :=
  match element.attr "class" with
  | some class_list => (splitSp class_list.data).map (fun cs => String.mk cs)
  | none => []

/-- Embeds dom.rs `NodeType`. -/
inductive NodeType where
  | Element (e : ElementData)
  | Text (s : String)

/-- Embeds dom.rs `Node`: a node type plus children. -/
inductive Node where
  | mk (node_type : NodeType) (children : List Node)

/-- Field accessor for `Node`. -/
def Node.node_type : Node → NodeType
  | Node.mk nt _ => nt

/-- Field accessor for `Node`. -/
def Node.children : Node → List Node
  | Node.mk _ cs => cs

/-! ## style.rs: selector matching and the cascade -/

/-- Embeds style.rs `PropertyMap = HashMap<String, Value>`, modelled by its
lookup function. -/
abbrev PropertyMap := String → Option Value

/-- The empty property map. -/
def emptyMap : PropertyMap := fun _ => none

/-- `HashMap::insert`: overwrite the value stored under `k`. -/
def pmInsert (m : PropertyMap) (k : String) (v : Value) : PropertyMap :=
  fun q => if q = k then some v else m q

/-- Embeds style.rs `StyledNode`: a DOM node, its specified values, and the
styled children. -/
inductive StyledNode where
  | mk (node : Node) (specified_values : PropertyMap) (children : List StyledNode)

/-- Field accessor for `StyledNode`. -/
def StyledNode.node : StyledNode → Node
  | StyledNode.mk n _ _ => n

/-- Field accessor for `StyledNode`. -/
def StyledNode.specified_values : StyledNode → PropertyMap
  | StyledNode.mk _ sv _ => sv

/-- Field accessor for `StyledNode`. -/
def StyledNode.children : StyledNode → List StyledNode
  | StyledNode.mk _ _ cs => cs

/-- Embeds style.rs `Display`. -/
inductive Display where
  | Inline
  | Block
  | None
  deriving DecidableEq

/-- Embeds style.rs `StyledNode::value`. -/
def StyledNode.value (node : StyledNode) (name : String) : Option Value :=
  node.specified_values name

/-- Embeds style.rs `StyledNode::lookup`: property `name`, else property
`fallback_name`, else the default. -/
def StyledNode.lookup (node : StyledNode) (name fallback_name : String)
    (default : Value) : Value :=
  (node.value name).getD ((node.value fallback_name).getD default)

/-- Embeds style.rs `StyledNode::display` (defaults to inline). -/
def StyledNode.display (node : StyledNode) : Display :=
  match node.value "display" with
  | some (Value.Keyword s) =>
      if s = "block" then Display.Block
      else if s = "none" then Display.None
      else Display.Inline
  | _ => Display.Inline

/-- Embeds style.rs `matches_simple_selector`: the three early-return checks
for tag, id and classes. -/
def matches_simple_selector (element : ElementData) (selector : SimpleSelector) : Bool :=
  if selector.tag_name.any (fun name => element.tag_name != name) then false
  else if selector.id.any (fun id => element.id != some id) then false
  else if selector.classList.any (fun c => !(element.classes.contains c)) then false
  else true

/-- Embeds style.rs `matches` (that word is a Lean keyword, hence the
name `matchesSel`). -/
def matchesSel (element : ElementData) (selector : Selector) : Bool :=
  match selector with
  | Selector.Simple s => matches_simple_selector element s

/-- Embeds style.rs `match_rule`: the first selector of the rule's stored list
that matches, paired with its specificity. -/
def match_rule (element : ElementData) (rule : Rule) : Option (Specificity × Rule) :=
  (rule.selectors.find? (fun selector => matchesSel element selector)).map
    (fun selector => (selector.specificity, rule))

/-- Embeds style.rs `matching_rules`: a linear scan of the stylesheet. -/
def matching_rules (element : ElementData) (stylesheet : Stylesheet) :
    List (Specificity × Rule) :=
  stylesheet.rules.filterMap (fun rule => match_rule element rule)

/-- Stable insertion of one matched rule in front of the first element that is
not strictly below it. -/
def insertBySpec (x : Specificity × Rule) :
    List (Specificity × Rule) → List (Specificity × Rule)
  | [] => [x]
  | y :: ys => if specLt y.1 x.1 then y :: insertBySpec x ys else x :: y :: ys

/-- Embeds `rules.sort_by(|&(a, _), &(b, _)| a.cmp(&b))` in style.rs
`specified_values`: Rust's `sort_by` is a stable ascending sort, and stable
insertion sort produces the same list. -/
def sortBySpecificity : List (Specificity × Rule) → List (Specificity × Rule)
  | [] => []
  | x :: xs => insertBySpec x (sortBySpecificity xs)

/-- Embeds the declaration loop of style.rs `specified_values`: insert every
declaration of the rule, later ones overwriting. -/
def applyRule (m : PropertyMap) (rule : Rule) : PropertyMap :=
  rule.declarations.foldl (fun m d => pmInsert m d.name d.value) m

/-- Embeds style.rs `specified_values`: sort the matched rules ascending by
specificity, then fold all their declarations into one map. -/
def specified_values (element : ElementData) (stylesheet : Stylesheet) : PropertyMap :=
  (sortBySpecificity (matching_rules element stylesheet)).foldl
    (fun m sr => applyRule m sr.2) emptyMap

mutual

/-- Embeds style.rs `style_tree`: pair every DOM node with its specified
values (empty for text nodes). -/
def style_tree : Node → Stylesheet → StyledNode
  | Node.mk nt cs, stylesheet =>
      StyledNode.mk (Node.mk nt cs)
        (match nt with
         | NodeType.Element e => specified_values e stylesheet
         | NodeType.Text _ => emptyMap)
        (style_children cs stylesheet)

/-- The child traversal of style.rs `style_tree`. -/
def style_children : List Node → Stylesheet → List StyledNode
  | [], _ => []
  | c :: rest, stylesheet => style_tree c stylesheet :: style_children rest stylesheet

end

/-! ## layout.rs: box tree and block layout -/

/-- Embeds layout.rs `Rect` (px sizes as rationals). -/
structure Rect where
  x : Rat
  y : Rat
  width : Rat
  height : Rat
  deriving DecidableEq

/-- Embeds layout.rs `EdgeSizes`. -/
structure EdgeSizes where
  left : Rat
  right : Rat
  top : Rat
  bottom : Rat
  deriving DecidableEq

/-- Embeds layout.rs `Dimensions`. -/
structure Dimensions where
  content : Rect
  padding : EdgeSizes
  border : EdgeSizes
  margin : EdgeSizes
  deriving DecidableEq

/-- `Default::default()` for `Dimensions`: every field 0.0. -/
def defaultDimensions : Dimensions :=
  ⟨⟨0, 0, 0, 0⟩, ⟨0, 0, 0, 0⟩, ⟨0, 0, 0, 0⟩, ⟨0, 0, 0, 0⟩⟩

/-- Embeds layout.rs `BoxType`. -/
inductive BoxType where
  | BlockNode (s : StyledNode)
  | InlineNode (s : StyledNode)
  | AnonymousBlock

/-- Embeds layout.rs `LayoutBox`. -/
inductive LayoutBox where
  | mk (dimensions : Dimensions) (box_type : BoxType) (children : List LayoutBox)

/-- Field accessor for `LayoutBox`. -/
def LayoutBox.dimensions : LayoutBox → Dimensions
  | LayoutBox.mk d _ _ => d

/-- Field accessor for `LayoutBox`. -/
def LayoutBox.box_type : LayoutBox → BoxType
  | LayoutBox.mk _ bt _ => bt

/-- Field accessor for `LayoutBox`. -/
def LayoutBox.children : LayoutBox → List LayoutBox
  | LayoutBox.mk _ _ cs => cs

/-- Embeds layout.rs `LayoutBox::new`: the given box type, default dimensions,
no children. -/
def LayoutBox.new (bt : BoxType) : LayoutBox :=
  LayoutBox.mk defaultDimensions bt []

/-- Embeds the effect of `root.get_inline_container().children.push(b)` in
layout.rs `build_layout_tree` when `root` is a Block box: if the last child is
already an `AnonymousBlock`, push the inline box into it, otherwise push a
fresh `AnonymousBlock` and push the inline box into that (the source's
`Some(&LayoutBox { box_type: AnonymousBlock, .. })` pattern is read as
matching the `AnonymousBlock` variant, as its comment says). -/
def pushInline (acc : List LayoutBox) (b : LayoutBox) : List LayoutBox :=
  match acc.getLast? with
  | some (LayoutBox.mk d BoxType.AnonymousBlock cs) =>
      acc.dropLast ++ [LayoutBox.mk d BoxType.AnonymousBlock (cs ++ [b])]
  | _ => acc ++ [LayoutBox.mk defaultDimensions BoxType.AnonymousBlock [b]]

mutual

/-- Embeds layout.rs `build_layout_tree`. The `panic!` on a display:none root
is modelled by `none`. -/
def build_layout_tree : StyledNode → Option LayoutBox
  | StyledNode.mk n sv cs =>
      match StyledNode.display (StyledNode.mk n sv cs) with
      | Display.None => none
      | Display.Block =>
          (build_children true cs []).map
            (fun bs =>
              LayoutBox.mk defaultDimensions (BoxType.BlockNode (StyledNode.mk n sv cs)) bs)
      | Display.Inline =>
          (build_children false cs []).map
            (fun bs =>
              LayoutBox.mk defaultDimensions (BoxType.InlineNode (StyledNode.mk n sv cs)) bs)

/-- The child loop of layout.rs `build_layout_tree`, accumulating the root's
children list.  `isBlockParent` records the root's box type: for an Inline
root `get_inline_container` is the root itself, so inline children are pushed
directly; for a Block root they go through `pushInline`. A failing recursive
build propagates as `none`. -/
def build_children (isBlockParent : Bool) :
    List StyledNode → List LayoutBox → Option (List LayoutBox)
  | [], acc => some acc
  | child :: rest, acc =>
      match child.display with
      | Display.None => build_children isBlockParent rest acc
      | Display.Block =>
          match build_layout_tree child with
          | some b => build_children isBlockParent rest (acc ++ [b])
          | none => none
      | Display.Inline =>
          match build_layout_tree child with
          | some b =>
              build_children isBlockParent rest
                (if isBlockParent then pushInline acc b else acc ++ [b])
          | none => none

end

/-- Embeds layout.rs `LayoutBox::layout` verbatim: the `BlockNode` arm calls
`self.layout(containing_block)` again (not `layout_block`), and the other two
arms do nothing. The recursion is given explicit fuel; `none` means the call
has not returned within `fuel` nested calls. -/
def layout : Nat → LayoutBox → Dimensions → Option LayoutBox
  | 0, _, _ => none
  | fuel + 1, b, containing_block =>
      match b.box_type with
      | BoxType.BlockNode _ => layout fuel b containing_block
      | BoxType.InlineNode _ => some b
      | BoxType.AnonymousBlock => some b

/-- Modelled from the spec: `get_style_node` is called by layout.rs
(lines 222 and 363) but its definition is not among the sources; per the spec
(section 3, Box Type) Block and Inline boxes carry their styled node and an
AnonymousBlock "must never be asked for one (fails fast if queried)". -/
def LayoutBox.get_style_node : LayoutBox → Option StyledNode
  | LayoutBox.mk _ (BoxType.BlockNode s) _ => some s
  | LayoutBox.mk _ (BoxType.InlineNode s) _ => some s
  | LayoutBox.mk _ BoxType.AnonymousBlock _ => none

/-- The value-level computation of layout.rs `calculate_block_width`
(lines 221-346): the used (width, margin_left, margin_right) that the source
leaves in local variables when it falls off the end of the function. -/
def blockWidthUsed (style : StyledNode) (containing_block : Dimensions) :
    Value × Value × Value :=
  let auto := Value.Keyword "auto"
  let width := (style.value "width").getD auto
  let zero := Value.Length 0 CssUnit.Px
  let margin_left := style.lookup "margin-left" "margin" zero
  let margin_right := style.lookup "margin-right" "margin" zero
  let border_left := style.lookup "border-left-width" "border-width" zero
  let border_right := style.lookup "border-right-width" "border-width" zero
  let padding_left := style.lookup "padding-left" "padding" zero
  let padding_right := style.lookup "padding-right" "padding" zero
  let total := [margin_left, margin_right, border_left, border_right,
    padding_left, padding_right, width].foldl (fun s v => s + v.to_px) 0
  let clamp := width ≠ auto ∧ total > containing_block.content.width
  let margin_left := if clamp ∧ margin_left = auto then zero else margin_left
  let margin_right := if clamp ∧ margin_right = auto then zero else margin_right
  let underflow := containing_block.content.width - total
  match width == auto, margin_left == auto, margin_right == auto with
  | false, false, false =>
      (width, margin_left, Value.Length (margin_right.to_px + underflow) CssUnit.Px)
  | false, false, true =>
      (width, margin_left, Value.Length underflow CssUnit.Px)
  | false, true, false =>
      (width, Value.Length underflow CssUnit.Px, margin_right)
  | true, _, _ =>
      let margin_left := if margin_left = auto then Value.Length 0 CssUnit.Px else margin_left
      let margin_right := if margin_right = auto then Value.Length 0 CssUnit.Px else margin_right
      if underflow ≥ 0 then
        (Value.Length underflow CssUnit.Px, margin_left, margin_right)
      else
        (Value.Length 0 CssUnit.Px, margin_left,
          Value.Length (margin_right.to_px + underflow) CssUnit.Px)
  | false, true, true =>
      (width, Value.Length (underflow / 2) CssUnit.Px,
        Value.Length (underflow / 2) CssUnit.Px)

/-- Embeds layout.rs `calculate_block_width`: it reads the style node, solves
the width constraints into local variables (`blockWidthUsed`) and then
returns; nothing is ever written into `self.dimensions`, so the box comes
back unchanged. -/
def calculate_block_width (b : LayoutBox) (containing_block : Dimensions) :
    Option LayoutBox :=
  (b.get_style_node).map (fun style =>
    let _used := blockWidthUsed style containing_block
    b)

/-! ## Shared concrete inputs -/

/-- A property map holding exactly the bindings of the given list. -/
def pmOfList (l : List (String × Value)) : PropertyMap :=
  fun k => (l.find? (fun p => p.1 = k)).map (fun p => p.2)

/-- A text DOM node. -/
def tNode : Node := Node.mk (NodeType.Text "x") []

/-- A styled node with no properties at all (display defaults to inline). -/
def sInlineA : StyledNode := StyledNode.mk tNode emptyMap []

/-- A second inline styled node. -/
def sInlineB : StyledNode := StyledNode.mk tNode emptyMap []

/-- A styled node with display:none. -/
def sNoneChild : StyledNode :=
  StyledNode.mk tNode (pmOfList [("display", Value.Keyword "none")]) []

/-- A display:block styled node with two inline children separated by a
display:none child. -/
def sBlockRoot : StyledNode :=
  StyledNode.mk tNode (pmOfList [("display", Value.Keyword "block")])
    [sInlineA, sNoneChild, sInlineB]

/-- A display:block styled node with no children and no other properties. -/
def sBlockLeaf : StyledNode :=
  StyledNode.mk tNode (pmOfList [("display", Value.Keyword "block")]) []

/-- A block layout box over `sBlockLeaf` with default (all-zero) dimensions. -/
def bxBlockLeaf : LayoutBox :=
  LayoutBox.mk defaultDimensions (BoxType.BlockNode sBlockLeaf) []

/-- A 200px-wide containing block. -/
def cb200 : Dimensions := ⟨⟨0, 0, 200, 0⟩, ⟨0, 0, 0, 0⟩, ⟨0, 0, 0, 0⟩, ⟨0, 0, 0, 0⟩⟩

/-! ## C1: `layout` on a Block box -/

/-- C1: `layout` called on a Block box never returns, whatever the recursion
fuel: the `BlockNode` arm of layout.rs `layout` calls `self.layout` on the
same box again instead of `self.layout_block`, so the four-step block solve
is never reached. This refutes the claim that `layout` terminates with
recursion depth equal to the box tree's nesting depth. -/
theorem layout_on_block_diverges (fuel : Nat) (d : Dimensions) (s : StyledNode)
    (cs : List LayoutBox) (cb : Dimensions) :
    layout fuel (LayoutBox.mk d (BoxType.BlockNode s) cs) cb = none := by
  induction fuel with
  | zero => rfl
  | succ n ih => simpa [layout, LayoutBox.box_type] using ih

/-! ## C2: the specificity associated with a matched rule -/

/-- The id selector `#a`. -/
def selIdA : Selector := Selector.Simple ⟨none, some "a", []⟩

/-- The class selector `.b`. -/
def selClsB : Selector := Selector.Simple ⟨none, none, ["b"]⟩

/-- Stable insertion of one selector in front of the first stored selector
that is not strictly below it. -/
def insertSelector (x : Selector) : List Selector → List Selector
  | [] => [x]
  | y :: ys =>
      if specLt y.specificity x.specificity then y :: insertSelector x ys
      else x :: y :: ys

/-- Embeds `selectors.sort_by_key(|s| s.specificity())` in css.rs
`parse_selectors` (line 299): Rust's `sort_by_key` is a stable ascending
sort, so a rule's stored selector list is ascending by specificity; stable
insertion sort produces the same list. -/
def sortSelectors : List Selector → List Selector
  | [] => []
  | x :: xs => insertSelector x (sortSelectors xs)

/-- A rule `#a, .b { color: green; }` as the parser stores it. -/
def ruleMulti : Rule :=
  ⟨sortSelectors [selIdA, selClsB],
   [⟨"color", Value.ColorValue ⟨0, 255, 0, 255⟩⟩]⟩

/-- The element `<p id="a" class="b">`. -/
def elemAB : ElementData := ⟨"p", [("id", "a"), ("class", "b")]⟩

/-- C2: for the element `<p id="a" class="b">` and the rule `#a, .b`, the
parser stores the selectors ascending by specificity, and `match_rule`
associates the match with specificity (0,1,0) — the first, least specific
stored selector that matches — although the rule's selector `#a` also matches
with the strictly higher specificity (1,0,0). This refutes the claim that the
associated specificity is the maximum over all matching selectors. -/
theorem match_rule_returns_least_specific :
    sortSelectors [selIdA, selClsB] = [selClsB, selIdA] ∧
    match_rule elemAB ruleMulti = some ((0, 1, 0), ruleMulti) ∧
    selIdA ∈ ruleMulti.selectors ∧
    matchesSel elemAB selIdA = true ∧
    selIdA.specificity = (1, 0, 0) ∧
    specLt (0, 1, 0) (1, 0, 0) := by
  refine ⟨by decide, by decide, by decide, by decide, by decide, by decide⟩

/-! ## C7: `build_layout_tree` fails exactly on a display:none root -/

mutual

/-- A styled node whose display is not none always builds successfully. -/
theorem build_isSome_of_display : ∀ (sn : StyledNode),
    sn.display ≠ Display.None → (build_layout_tree sn).isSome = true
  | StyledNode.mk n sv cs => by
      intro h
      match hd : StyledNode.display (StyledNode.mk n sv cs) with
      | Display.None => exact absurd hd h
      | Display.Block =>
          have hc := build_children_isSome cs true []
          simp [build_layout_tree, hd]
          simpa [Option.isSome] using hc
      | Display.Inline =>
          have hc := build_children_isSome cs false []
          simp [build_layout_tree, hd]
          simpa [Option.isSome] using hc

/-- The child loop of `build_layout_tree` always succeeds: it only recurses
into children whose display is Block or Inline. -/
theorem build_children_isSome : ∀ (cs : List StyledNode) (flag : Bool)
    (acc : List LayoutBox), (build_children flag cs acc).isSome = true
  | [], _, _ => rfl
  | child :: rest, flag, acc => by
      match hd : child.display with
      | Display.None =>
          simpa [build_children, hd] using build_children_isSome rest flag acc
      | Display.Block =>
          have hb := build_isSome_of_display child (by simp [hd])
          match hbuild : build_layout_tree child with
          | some b =>
              simpa [build_children, hd, hbuild] using
                build_children_isSome rest flag (acc ++ [b])
          | none => simp [hbuild] at hb
      | Display.Inline =>
          have hb := build_isSome_of_display child (by simp [hd])
          match hbuild : build_layout_tree child with
          | some b =>
              simpa [build_children, hd, hbuild] using
                build_children_isSome rest flag
                  (if flag then pushInline acc b else acc ++ [b])
          | none => simp [hbuild] at hb

end

/-- C7: `build_layout_tree` fails (the modelled `panic!`) exactly when the
root's display resolves to none; in the `Option` model the failing run
returns `none`, carrying no partial tree. -/
theorem build_layout_tree_eq_none_iff (sn : StyledNode) :
    build_layout_tree sn = none ↔ sn.display = Display.None := by
  constructor
  · intro h
    by_contra hne
    have := build_isSome_of_display sn hne
    rw [h] at this
    exact Bool.noConfusion this
  · intro h
    match sn, h with
    | StyledNode.mk n sv cs, h => simp [build_layout_tree, h]
/-! ## C3: block width is solved but never stored -/

/-- With `width` and every horizontal margin, border and padding property
absent, the width solve resolves to (containing width, 0, 0): all lookups
fall back to `auto` or to zero, the total is 0, and the `(true, _, _)` arm
sets the width to the underflow. -/
theorem blockWidthUsed_all_absent (style : StyledNode) (cb : Dimensions)
    (hw : style.value "width" = none)
    (hml : style.value "margin-left" = none)
    (hmr : style.value "margin-right" = none)
    (hm : style.value "margin" = none)
    (hbl : style.value "border-left-width" = none)
    (hbr : style.value "border-right-width" = none)
    (hb : style.value "border-width" = none)
    (hpl : style.value "padding-left" = none)
    (hpr : style.value "padding-right" = none)
    (hp : style.value "padding" = none)
    (hcb : 0 ≤ cb.content.width) :
    blockWidthUsed style cb =
      (Value.Length cb.content.width CssUnit.Px, Value.Length 0 CssUnit.Px,
        Value.Length 0 CssUnit.Px) := by
  unfold blockWidthUsed
  simp only [StyledNode.lookup, hw, hml, hmr, hm, hbl, hbr, hb, hpl, hpr, hp,
    Option.getD_none]
  norm_num [Value.to_px]
  intro h
  exact absurd h (not_lt.mpr hcb)

/-- C3: for a Block box with only `display:block` set (width auto, margins,
borders and paddings absent) in a 200px containing block, the source's width
solve computes the used width 200 into local variables, but
`calculate_block_width` returns the box unchanged — `self.dimensions` is
never written — so the width stored in its dimensions stays 0, not the
containing block's content width. (`layout` itself never even reaches this
code on a Block box; see the C1 theorem.) -/
theorem calculate_block_width_stores_nothing :
    blockWidthUsed sBlockLeaf cb200 =
      (Value.Length 200 CssUnit.Px, Value.Length 0 CssUnit.Px,
        Value.Length 0 CssUnit.Px) ∧
    calculate_block_width bxBlockLeaf cb200 = some bxBlockLeaf ∧
    bxBlockLeaf.dimensions.content.width = 0 ∧
    bxBlockLeaf.dimensions.content.width ≠ cb200.content.width := by
  refine ⟨?_, rfl, rfl, ?_⟩
  · have h := blockWidthUsed_all_absent sBlockLeaf cb200 rfl rfl rfl rfl rfl rfl
      rfl rfl rfl rfl (by norm_num [cb200])
    simpa [cb200] using h
  · show (0 : Rat) ≠ 200
    norm_num
/-! ## C8: the simple-selector match predicate -/

/-- C8: `matches` on a simple selector is true exactly when the tag constraint
is absent or equal, the id constraint is absent or equal, and every selector
class is among the element's classes. Absent element attributes make the
id/class checks fail the match rather than erroring; the function is total. -/
theorem matchesSel_simple_iff (element : ElementData) (s : SimpleSelector) :
    matchesSel element (Selector.Simple s) = true ↔
      (s.tag_name = none ∨ s.tag_name = some element.tag_name) ∧
      (s.id = none ∨ s.id = element.id) ∧
      (∀ c ∈ s.classList, c ∈ element.classes) := by
  show matches_simple_selector element s = true ↔ _
  unfold matches_simple_selector
  cases ht : s.tag_name <;> cases hi : s.id <;>
    simp [List.any_eq_true, List.contains, List.elem_iff] <;>
    simp [eq_comm]
/-! ## C9: class tokenization -/

/-- Splitting at every whitespace character (same shape as `splitSp`, with
`Char.isWhitespace` as the separator test). -/
def splitWsAll : List Char → List (List Char)
  | [] => [[]]
  | c :: rest =>
      match splitWsAll rest with
      | t :: ts => if c.isWhitespace then [] :: t :: ts else (c :: t) :: ts
      | [] => if c.isWhitespace then [[], []] else [[c]]

/-- The claim's words, for comparison: the whitespace-separated tokens of a
string are the nonempty maximal runs between whitespace characters. -/
def wsTokens (l : List Char) : List (List Char) :=
  (splitWsAll l).filter (fun t => !t.isEmpty)

/-- The claim's words, for comparison: `classes` as the set of
whitespace-separated tokens of the "class" attribute (empty when absent). -/
def specClasses (element : ElementData) : List String :=
  match element.attr "class" with
  | some class_list => (wsTokens class_list.data).map (fun cs => String.mk cs)
  | none => []

/-- An element whose class attribute holds two names separated by a run of
two spaces. -/
def elemDoubleSpace : ElementData := ⟨"p", [("class", "a  b")]⟩

/-- An element whose class attribute holds two names separated by a tab. -/
def elemTab : ElementData := ⟨"p", [("class", "a\tb")]⟩

/-- C9 counterexample: `classes` splits on single spaces only, so a run of two
spaces produces a spurious empty token and a tab does not separate at all —
on both inputs the result differs from the whitespace-separated token set the
claim describes. -/
theorem classes_ne_whitespace_tokens :
    ElementData.classes elemDoubleSpace = ["a", "", "b"] ∧
    specClasses elemDoubleSpace = ["a", "b"] ∧
    ElementData.classes elemTab = ["a\tb"] ∧
    specClasses elemTab = ["a", "b"] := by
  refine ⟨by decide, by decide, by decide, by decide⟩

/-- `splitSp` never returns the empty list of segments. -/
theorem splitSp_ne_nil : ∀ l : List Char, splitSp l ≠ []
  | [] => by simp [splitSp]
  | c :: rest => by
      unfold splitSp
      by_cases hc : c = ' ' <;> cases h : splitSp rest <;> simp [hc]

/-- Interleave the given segments with single spaces: the inverse of
`splitSp`. -/
def joinSp : List (List Char) → List Char
  | [] => []
  | [t] => t
  | t :: u :: ts => t ++ ' ' :: joinSp (u :: ts)

/-- Prepending a character to the first segment prepends it to the joined
string. -/
theorem joinSp_cons_head (c : Char) (t : List Char) (ts : List (List Char)) :
    joinSp ((c :: t) :: ts) = c :: joinSp (t :: ts) := by
  cases ts with
  | nil => rfl
  | cons u ts => simp [joinSp]

/-- Joining the space-split segments with single spaces restores the original
string: `splitSp` is a faithful segmentation. -/
theorem joinSp_splitSp : ∀ l : List Char, joinSp (splitSp l) = l
  | [] => rfl
  | c :: rest => by
      unfold splitSp
      cases h : splitSp rest with
      | nil => exact absurd h (splitSp_ne_nil rest)
      | cons t ts =>
          by_cases hc : c = ' '
          · subst hc
            simp only [if_pos rfl, joinSp]
            have := joinSp_splitSp rest
            rw [h] at this
            simp [this]
          · simp only [if_neg hc, joinSp_cons_head]
            have := joinSp_splitSp rest
            rw [h] at this
            rw [this]

/-- No segment produced by `splitSp` contains a space. -/
theorem splitSp_no_space : ∀ (l : List Char), ∀ x ∈ splitSp l, ' ' ∉ x
  | [], x, hx => by
      simp [splitSp] at hx
      simp [hx]
  | c :: rest, x, hx => by
      have hrec := splitSp_no_space rest
      unfold splitSp at hx
      cases h : splitSp rest with
      | nil => exact absurd h (splitSp_ne_nil rest)
      | cons t ts =>
          rw [h] at hx hrec
          by_cases hc : c = ' '
          · subst hc
            simp only [if_pos rfl] at hx
            rcases List.mem_cons.mp hx with rfl | hx
            · simp
            · exact hrec x hx
          · simp only [if_neg hc] at hx
            rcases List.mem_cons.mp hx with rfl | hx
            · intro hmem
              rcases List.mem_cons.mp hmem with hce | hmt
              · exact hc hce.symm
              · exact hrec t (List.mem_cons_self t ts) hmt
            · exact hrec x (List.mem_cons_of_mem t hx)

/-- C9 (amended): `classes` returns the set of tokens obtained by splitting
the "class" attribute value on single space characters — no token contains a
space, and rejoining the tokens with single spaces restores the attribute
value exactly (so runs of spaces yield empty tokens and other whitespace
stays inside a token) — and the empty set when the attribute is absent. -/
theorem classes_space_split_characterization (element : ElementData) :
    (element.attr "class" = none → element.classes = []) ∧
    (∀ class_list : String, element.attr "class" = some class_list →
      (∀ x ∈ element.classes, ' ' ∉ x.data) ∧
      joinSp (element.classes.map String.data) = class_list.data) := by
  constructor
  · intro h
    simp [ElementData.classes, h]
  · intro class_list h
    constructor
    · intro x hx
      simp only [ElementData.classes, h, List.mem_map] at hx
      rcases hx with ⟨cs, hcs, rfl⟩
      exact splitSp_no_space class_list.data cs hcs
    · simp only [ElementData.classes, h, List.map_map]
      have : (String.data ∘ fun cs => String.mk cs) = id := rfl
      rw [this, List.map_id]
      exact joinSp_splitSp class_list.data
/-! ## C4: the cascade — sort, fold, and who wins -/

/-- The last declaration named `p` in a declaration list, i.e. the value left
in the map after folding the list (each insert overwrites). -/
def lastVal (p : String) : List Declaration → Option Value
  | [] => none
  | d :: ds =>
      match lastVal p ds with
      | some v => some v
      | none => if d.name = p then some d.value else none

/-- The value left under `p` after folding a list of matched rules in order. -/
def rulesVal (p : String) : List (Specificity × Rule) → Option Value
  | [] => none
  | sr :: rs =>
      match rulesVal p rs with
      | some v => some v
      | none => lastVal p sr.2.declarations

/-- One step of the spec's cascade, combining the best candidate among the
later rules with one earlier rule: a rule that does not declare `p` changes
nothing; otherwise the earlier rule wins only with strictly higher
specificity, so on ties the later rule is kept. -/
def cascadeStep (p : String) (b : Option (Specificity × Value))
    (sr : Specificity × Rule) : Option (Specificity × Value) :=
  match b, lastVal p sr.2.declarations with
  | some bv, some v => if specLt bv.1 sr.1 then some (sr.1, v) else some bv
  | some bv, none => some bv
  | none, some v => some (sr.1, v)
  | none, none => none

/-- The spec's words, for comparison: among the matched rules, in stylesheet
order, the winning (specificity, value) for property `p` — the declaring rule
of highest associated specificity, the later one on ties, its last `p`
declaration as the value. -/
def bestMatch (p : String) : List (Specificity × Rule) → Option (Specificity × Value)
  | [] => none
  | sr :: rs => cascadeStep p (bestMatch p rs) sr

/-- The matched-rule lists are ordered ascending when no later entry is
strictly below an earlier one. -/
def sortedBySpec (l : List (Specificity × Rule)) : Prop :=
  List.Pairwise (fun a b => ¬ specLt b.1 a.1) l

/-- `specLt` is asymmetric. -/
theorem specLt_asymm {a b : Specificity} (h : specLt a b) : ¬ specLt b a := by
  obtain ⟨a1, a2, a3⟩ := a
  obtain ⟨b1, b2, b3⟩ := b
  unfold specLt at *
  omega

/-- `specLt` is transitive. -/
theorem specLt_trans {a b c : Specificity} (h1 : specLt a b) (h2 : specLt b c) :
    specLt a c := by
  obtain ⟨a1, a2, a3⟩ := a
  obtain ⟨b1, b2, b3⟩ := b
  obtain ⟨c1, c2, c3⟩ := c
  unfold specLt at *
  omega

/-- The complement of `specLt` is transitive. -/
theorem specNotLt_trans {a b c : Specificity} (h1 : ¬ specLt b a)
    (h2 : ¬ specLt c b) : ¬ specLt c a := by
  obtain ⟨a1, a2, a3⟩ := a
  obtain ⟨b1, b2, b3⟩ := b
  obtain ⟨c1, c2, c3⟩ := c
  unfold specLt at *
  omega

/-- Membership in an insertion. -/
theorem mem_insertBySpec (x : Specificity × Rule) :
    ∀ (l : List (Specificity × Rule)) (a : Specificity × Rule),
      a ∈ insertBySpec x l ↔ a = x ∨ a ∈ l
  | [], a => by simp [insertBySpec]
  | y :: ys, a => by
      unfold insertBySpec
      split
      · rw [List.mem_cons, mem_insertBySpec x ys a, List.mem_cons]
        tauto
      · simp only [List.mem_cons]
        try tauto

/-- Insertion preserves ascending order. -/
theorem sorted_insertBySpec (x : Specificity × Rule) :
    ∀ (l : List (Specificity × Rule)), sortedBySpec l →
      sortedBySpec (insertBySpec x l)
  | [], _ => by simp [insertBySpec, sortedBySpec]
  | y :: ys, h => by
      rcases (List.pairwise_cons.mp h) with ⟨hy, hys⟩
      unfold insertBySpec
      split
      case isTrue hlt =>
        refine List.pairwise_cons.mpr ⟨?_, sorted_insertBySpec x ys hys⟩
        intro z hz
        rcases (mem_insertBySpec x ys z).mp hz with rfl | hz
        · exact specLt_asymm hlt
        · exact hy z hz
      case isFalse hge =>
        refine List.pairwise_cons.mpr ⟨?_, h⟩
        intro z hz
        rcases List.mem_cons.mp hz with rfl | hz
        · exact hge
        · exact specNotLt_trans hge (hy z hz)

/-- Sorting with stable insertion yields an ascending list. -/
theorem sorted_sortBySpecificity :
    ∀ l : List (Specificity × Rule), sortedBySpec (sortBySpecificity l)
  | [] => by simp [sortBySpecificity, sortedBySpec]
  | x :: xs => sorted_insertBySpec x _ (sorted_sortBySpecificity xs)

/-- Two cascade steps whose rules have strictly ordered specificities
commute: swapping two adjacent matched rules of different specificity does
not change the winner. -/
theorem cascadeStep_swap (p : String) (x y : Specificity × Rule)
    (h : specLt y.1 x.1) (b : Option (Specificity × Value)) :
    cascadeStep p (cascadeStep p b x) y = cascadeStep p (cascadeStep p b y) x := by
  rcases b with _ | ⟨bs, bv⟩ <;>
    unfold cascadeStep <;>
    cases hx : lastVal p x.2.declarations <;>
    cases hy : lastVal p y.2.declarations <;>
    try rfl
  all_goals (try dsimp only)
  all_goals (try split_ifs)
  all_goals (try dsimp only)
  all_goals (try split_ifs)
  all_goals (first | rfl | (exfalso ; unfold specLt at * ; omega))

/-- The specificity a nonempty cascade result carries belongs to one of the
matched rules. -/
theorem bestMatch_spec_mem (p : String) :
    ∀ (rs : List (Specificity × Rule)) (bv : Specificity × Value),
      bestMatch p rs = some bv → ∃ sr ∈ rs, sr.1 = bv.1
  | [], bv => by simp [bestMatch]
  | sr :: rs, bv => by
      show cascadeStep p (bestMatch p rs) sr = some bv → _
      unfold cascadeStep
      cases hb : bestMatch p rs <;>
        cases hl : lastVal p sr.2.declarations <;>
        dsimp only <;>
        intro h
      · exact Option.noConfusion h
      · obtain rfl := Option.some.inj h
        exact ⟨sr, List.mem_cons_self sr rs, rfl⟩
      · obtain rfl := Option.some.inj h
        rcases bestMatch_spec_mem p rs _ hb with ⟨z, hz, hz1⟩
        exact ⟨z, List.mem_cons_of_mem sr hz, hz1⟩
      · split at h
        · obtain rfl := Option.some.inj h
          exact ⟨sr, List.mem_cons_self sr rs, rfl⟩
        · obtain rfl := Option.some.inj h
          rcases bestMatch_spec_mem p rs _ hb with ⟨z, hz, hz1⟩
          exact ⟨z, List.mem_cons_of_mem sr hz, hz1⟩

/-- Stable insertion into an ascending list does not change the cascade
winner: the moved rule's specificity differs strictly from every rule it
passes, so each adjacent swap is safe. -/
theorem bestMatch_insert (p : String) (x : Specificity × Rule) :
    ∀ S, sortedBySpec S → bestMatch p (insertBySpec x S) = bestMatch p (x :: S)
  | [], _ => rfl
  | y :: S, h => by
      rcases List.pairwise_cons.mp h with ⟨hy, hS⟩
      unfold insertBySpec
      split
      case isTrue hlt =>
        show cascadeStep p (bestMatch p (insertBySpec x S)) y = _
        rw [bestMatch_insert p x S hS]
        exact cascadeStep_swap p x y hlt (bestMatch p S)
      case isFalse => rfl

/-- Sorting the matched rules does not change the cascade winner. -/
theorem bestMatch_sort (p : String) :
    ∀ l, bestMatch p (sortBySpecificity l) = bestMatch p l
  | [] => rfl
  | x :: xs => by
      show bestMatch p (insertBySpec x (sortBySpecificity xs)) = _
      rw [bestMatch_insert p x _ (sorted_sortBySpecificity xs)]
      show cascadeStep p (bestMatch p (sortBySpecificity xs)) x =
        cascadeStep p (bestMatch p xs) x
      rw [bestMatch_sort p xs]

/-- On an ascending list, folding the rules left to right leaves under `p`
exactly the cascade winner's value: the last declaring rule of an ascending
list is a maximal one. -/
theorem rulesVal_sorted_eq (p : String) :
    ∀ S, sortedBySpec S → rulesVal p S = (bestMatch p S).map Prod.snd
  | [], _ => rfl
  | sr :: S, h => by
      rcases List.pairwise_cons.mp h with ⟨hhead, hS⟩
      have ih := rulesVal_sorted_eq p S hS
      show (match rulesVal p S with
            | some v => some v
            | none => lastVal p sr.2.declarations) =
          (cascadeStep p (bestMatch p S) sr).map Prod.snd
      cases hb : bestMatch p S with
      | none =>
          rw [hb] at ih
          rw [ih]
          unfold cascadeStep
          cases hl : lastVal p sr.2.declarations <;> simp
      | some bv =>
          rw [hb] at ih
          simp only [Option.map_some'] at ih
          rw [ih]
          unfold cascadeStep
          cases hl : lastVal p sr.2.declarations with
          | none => simp
          | some v =>
              have hnot : ¬ specLt bv.1 sr.1 := by
                rcases bestMatch_spec_mem p S bv hb with ⟨z, hz, hz1⟩
                rw [← hz1]
                exact hhead z hz
              simp [hnot]

/-- Folding one rule's declarations into a map: property `p` takes the rule's
last `p` declaration, or keeps its old value. -/
theorem declFold_lookup (p : String) :
    ∀ (ds : List Declaration) (m : PropertyMap),
      (ds.foldl (fun m d => pmInsert m d.name d.value) m) p =
        match lastVal p ds with
        | some v => some v
        | none => m p
  | [], m => rfl
  | d :: ds, m => by
      show (ds.foldl _ (pmInsert m d.name d.value)) p = _
      rw [declFold_lookup p ds (pmInsert m d.name d.value)]
      show _ = (match
          (match lastVal p ds with
           | some v => some v
           | none => if d.name = p then some d.value else none) with
        | some v => some v
        | none => m p)
      cases h : lastVal p ds with
      | some v => rfl
      | none =>
          show pmInsert m d.name d.value p = _
          by_cases hp : d.name = p
          · simp [pmInsert, hp]
          · have hp2 : ¬ (p = d.name) := fun hq => hp hq.symm
            simp [pmInsert, hp, hp2]

/-- Folding a list of matched rules into a map: property `p` takes the value
of the last declaring rule, or keeps its old value. -/
theorem ruleFold_lookup (p : String) :
    ∀ (rs : List (Specificity × Rule)) (m : PropertyMap),
      (rs.foldl (fun m sr => applyRule m sr.2) m) p =
        match rulesVal p rs with
        | some v => some v
        | none => m p
  | [], m => rfl
  | sr :: rs, m => by
      show (rs.foldl _ (applyRule m sr.2)) p = _
      rw [ruleFold_lookup p rs (applyRule m sr.2)]
      show _ = (match
          (match rulesVal p rs with
           | some v => some v
           | none => lastVal p sr.2.declarations) with
        | some v => some v
        | none => m p)
      cases h : rulesVal p rs with
      | some v => rfl
      | none =>
          show applyRule m sr.2 p = _
          unfold applyRule
          rw [declFold_lookup p sr.2.declarations m]

/-- C4: `specified_values` computes, for every property name, exactly the
spec's cascade winner over the matched rules in stylesheet order
(`matching_rules` preserves stylesheet order): the value comes from the
declaring matched rule of highest associated specificity, the rule later in
the stylesheet winning ties, with later declarations inside one rule
overwriting earlier ones; the property is absent when no matched rule
declares it. -/
theorem specified_values_cascade (element : ElementData)
    (stylesheet : Stylesheet) (p : String) :
    specified_values element stylesheet p =
      (bestMatch p (matching_rules element stylesheet)).map Prod.snd := by
  have h1 := ruleFold_lookup p
    (sortBySpecificity (matching_rules element stylesheet)) emptyMap
  have h2 := rulesVal_sorted_eq p _
    (sorted_sortBySpecificity (matching_rules element stylesheet))
  rw [bestMatch_sort] at h2
  unfold specified_values
  rw [h1, h2]
  cases bestMatch p (matching_rules element stylesheet) <;> rfl
/-! ## C10: resolved style is context-free -/

/-- The DOM node at a child-index path, if the path exists. -/
def nodeAt : Node → List Nat → Option Node
  | n, [] => some n
  | Node.mk _ cs, i :: p =>
      match cs.get? i with
      | some c => nodeAt c p
      | none => none

/-- The styled node at a child-index path, if the path exists. -/
def styledAt : StyledNode → List Nat → Option StyledNode
  | s, [] => some s
  | StyledNode.mk _ _ cs, i :: p =>
      match cs.get? i with
      | some c => styledAt c p
      | none => none

/-- The child traversal of `style_tree` is a map over the children. -/
theorem style_children_eq_map (stylesheet : Stylesheet) :
    ∀ cs : List Node, style_children cs stylesheet =
      cs.map (fun c => style_tree c stylesheet)
  | [] => rfl
  | c :: rest => by
      simp only [style_children, List.map_cons, style_children_eq_map stylesheet rest]

/-- The style tree is built node by node: the styled node at a path is the
standalone styling of the DOM node at that path (no context flows in). -/
theorem styledAt_style_tree (stylesheet : Stylesheet) :
    ∀ (p : List Nat) (t : Node),
      styledAt (style_tree t stylesheet) p =
        (nodeAt t p).map (fun n => style_tree n stylesheet)
  | [], t => by cases t; rfl
  | i :: p, Node.mk nt cs => by
      show (match (style_children cs stylesheet).get? i with
            | some c => styledAt c p
            | none => none) =
          (match cs.get? i with
           | some c => nodeAt c p
           | none => none).map (fun n => style_tree n stylesheet)
      rw [style_children_eq_map, List.get?_map]
      cases h : cs.get? i with
      | none => rfl
      | some c =>
          show styledAt (style_tree c stylesheet) p = _
          exact styledAt_style_tree stylesheet p c

/-- `find?` only depends on the pointwise behaviour of its predicate. -/
theorem find?_congr {α : Type} (p q : α → Bool) (hpq : ∀ a, p a = q a) :
    ∀ l : List α, l.find? p = l.find? q
  | [] => rfl
  | a :: l => by
      simp only [List.find?]
      rw [hpq a]
      cases q a
      · exact find?_congr p q hpq l
      · rfl

/-- Elements with the same tag name and attribute map match the same
selectors with the same result. -/
theorem matchesSel_congr (e1 e2 : ElementData)
    (htag : e1.tag_name = e2.tag_name) (hattr : ∀ k, e1.attr k = e2.attr k)
    (selector : Selector) : matchesSel e1 selector = matchesSel e2 selector := by
  have hid : e1.id = e2.id := by simp [ElementData.id, hattr]
  have hcls : e1.classes = e2.classes := by
    simp [ElementData.classes, hattr]
  cases selector with
  | Simple s =>
      show matches_simple_selector e1 s = matches_simple_selector e2 s
      unfold matches_simple_selector
      rw [htag, hid, hcls]

/-- Elements with the same tag name and attribute map select the same matched
rules, with the same associated specificities, from any stylesheet. -/
theorem matching_rules_congr (e1 e2 : ElementData)
    (htag : e1.tag_name = e2.tag_name) (hattr : ∀ k, e1.attr k = e2.attr k)
    (stylesheet : Stylesheet) :
    matching_rules e1 stylesheet = matching_rules e2 stylesheet := by
  unfold matching_rules
  refine List.filterMap_congr (fun rule _ => ?_)
  unfold match_rule
  rw [find?_congr (fun selector => matchesSel e1 selector)
    (fun selector => matchesSel e2 selector)
    (fun selector => matchesSel_congr e1 e2 htag hattr selector) rule.selectors]

/-- C10: resolved style is context-free. For one stylesheet, any two element
nodes — at arbitrary paths of arbitrary document trees, with arbitrary
children — whose tag names and attribute maps agree produce equal specified
value maps in the style trees; ancestors and children never influence an
element's own map. -/
theorem specified_values_context_free (stylesheet : Stylesheet)
    (t1 t2 : Node) (p1 p2 : List Nat) (n1 n2 : Node) (e1 e2 : ElementData)
    (h1 : nodeAt t1 p1 = some n1) (h2 : nodeAt t2 p2 = some n2)
    (he1 : n1.node_type = NodeType.Element e1)
    (he2 : n2.node_type = NodeType.Element e2)
    (htag : e1.tag_name = e2.tag_name)
    (hattr : ∀ k, e1.attr k = e2.attr k) :
    ∃ s1 s2, styledAt (style_tree t1 stylesheet) p1 = some s1 ∧
      styledAt (style_tree t2 stylesheet) p2 = some s2 ∧
      s1.specified_values = s2.specified_values := by
  refine ⟨style_tree n1 stylesheet, style_tree n2 stylesheet, ?_, ?_, ?_⟩
  · rw [styledAt_style_tree, h1]; rfl
  · rw [styledAt_style_tree, h2]; rfl
  · obtain ⟨nt1, cs1⟩ := n1
    obtain ⟨nt2, cs2⟩ := n2
    have hnt1 : nt1 = NodeType.Element e1 := he1
    have hnt2 : nt2 = NodeType.Element e2 := he2
    subst hnt1
    subst hnt2
    show specified_values e1 stylesheet = specified_values e2 stylesheet
    unfold specified_values
    rw [matching_rules_congr e1 e2 htag hattr stylesheet]

/-- The element data shared by the two witness trees. -/
def pElem : ElementData := ⟨"p", [("id", "a")]⟩

/-- First witness tree: the `p` element is the root and has a text child. -/
def exT1 : Node := Node.mk (NodeType.Element pElem) [Node.mk (NodeType.Text "x") []]

/-- The `p` element of the second witness tree, childless. -/
def exN2 : Node := Node.mk (NodeType.Element pElem) []

/-- Second witness tree: the `p` element sits under a `div` root. -/
def exT2 : Node := Node.mk (NodeType.Element ⟨"div", []⟩) [exN2]

/-- A one-rule stylesheet for the context-freeness witness. -/
def witSheet : Stylesheet :=
  ⟨[⟨[Selector.Simple ⟨some "p", none, []⟩], [⟨"color", Value.Keyword "red"⟩]⟩]⟩

/-- Witness for C10 at concrete inputs: the root `p` of one tree and the
nested `p` of another resolve to equal property maps. -/
theorem specified_values_context_free_witness :
    ∃ s1 s2, styledAt (style_tree exT1 witSheet) [] = some s1 ∧
      styledAt (style_tree exT2 witSheet) [0] = some s2 ∧
      s1.specified_values = s2.specified_values :=
  specified_values_context_free witSheet exT1 exT2 [] [0] exT1 exN2 pElem pElem
    rfl rfl rfl rfl rfl (fun _ => rfl)
/-! ## C5: block boxes never hold bare inline children, and inline runs share
one anonymous wrapper -/

/-- Is the box an inline-node box? -/
def isInlineBox : LayoutBox → Bool
  | LayoutBox.mk _ (BoxType.InlineNode _) _ => true
  | _ => false

/-- Is the box an anonymous block box? -/
def isAnonBox : LayoutBox → Bool
  | LayoutBox.mk _ BoxType.AnonymousBlock _ => true
  | _ => false

/-- No two adjacent anonymous boxes: a run of inline siblings is never split
over two wrappers. -/
def noAdjAnon (cs : List LayoutBox) : Prop :=
  List.Chain' (fun a b => ¬ (isAnonBox a = true ∧ isAnonBox b = true)) cs

/-- The children shape a Block box must have: no bare inline child, no two
adjacent anonymous wrappers, and every anonymous wrapper nonempty and holding
only inline boxes. -/
def blockChildrenShape (cs : List LayoutBox) : Prop :=
  (∀ c ∈ cs, isInlineBox c = false) ∧ noAdjAnon cs ∧
  (∀ c ∈ cs, isAnonBox c = true →
    c.children ≠ [] ∧ ∀ g ∈ c.children, isInlineBox g = true)

/-- Shape constraint of a box's children list, by box type. -/
def childShape : BoxType → List LayoutBox → Prop
  | BoxType.BlockNode _, cs => blockChildrenShape cs
  | _, _ => True

mutual

/-- Every box in the tree satisfies its shape constraint. -/
def boxWf : LayoutBox → Prop
  | LayoutBox.mk _ bt cs => childShape bt cs ∧ boxesWf cs

/-- All boxes in the list are well-formed trees. -/
def boxesWf : List LayoutBox → Prop
  | [] => True
  | c :: cs => boxWf c ∧ boxesWf cs

end

/-- Well-formedness distributes over append. -/
theorem boxesWf_append : ∀ l1 l2 : List LayoutBox,
    boxesWf (l1 ++ l2) ↔ boxesWf l1 ∧ boxesWf l2
  | [], l2 => by simp [boxesWf]
  | c :: l1, l2 => by
      show boxWf c ∧ boxesWf (l1 ++ l2) ↔ (boxWf c ∧ boxesWf l1) ∧ boxesWf l2
      rw [boxesWf_append l1 l2, and_assoc]

/-- Appending a non-inline, non-anonymous box preserves the Block children
shape. -/
theorem blockChildrenShape_append (cs : List LayoutBox) (b : LayoutBox)
    (h : blockChildrenShape cs) (hi : isInlineBox b = false)
    (ha : isAnonBox b = false) : blockChildrenShape (cs ++ [b]) := by
  obtain ⟨h1, h2, h3⟩ := h
  refine ⟨?_, ?_, ?_⟩
  · intro c hc
    rcases List.mem_append.mp hc with hc | hc
    · exact h1 c hc
    · rw [List.mem_singleton.mp hc]
      exact hi
  · refine List.chain'_append.mpr ⟨h2, List.chain'_singleton b, ?_⟩
    intro x _ y hy
    rw [List.head?_cons, Option.mem_some_iff] at hy
    subst hy
    intro hxy
    rw [ha] at hxy
    exact Bool.noConfusion hxy.2
  · intro c hc hanon
    rcases List.mem_append.mp hc with hc | hc
    · exact h3 c hc hanon
    · rw [List.mem_singleton.mp hc] at hanon
      rw [ha] at hanon
      exact Bool.noConfusion hanon

/-- Pushing an inline box through `get_inline_container` preserves the Block
children shape and tree well-formedness: the box lands inside the trailing
anonymous wrapper, reused or fresh. -/
theorem pushInline_wf (acc : List LayoutBox) (b : LayoutBox)
    (hshape : blockChildrenShape acc) (hwf : boxesWf acc)
    (hb : isInlineBox b = true) (hbwf : boxWf b) :
    blockChildrenShape (pushInline acc b) ∧ boxesWf (pushInline acc b) := by
  obtain ⟨h1, h2, h3⟩ := hshape
  unfold pushInline
  cases hl : acc.getLast? with
  | none =>
      have hnil : acc = [] := List.getLast?_eq_none_iff.mp hl
      subst hnil
      show blockChildrenShape
          ([] ++ [LayoutBox.mk defaultDimensions BoxType.AnonymousBlock [b]]) ∧
        boxesWf ([] ++ [LayoutBox.mk defaultDimensions BoxType.AnonymousBlock [b]])
      rw [List.nil_append]
      refine ⟨⟨?_, ?_, ?_⟩, ?_⟩
      · intro c hc
        rw [List.mem_singleton.mp hc]
        rfl
      · exact List.chain'_singleton _
      · intro c hc _
        rw [List.mem_singleton.mp hc]
        refine ⟨by simp [LayoutBox.children], ?_⟩
        intro g hg
        have hgb : g = b := List.mem_singleton.mp (by
          simpa [LayoutBox.children] using hg)
        rw [hgb]
        exact hb
      · exact ⟨⟨trivial, hbwf, trivial⟩, trivial⟩
  | some lb =>
      obtain ⟨ys, rfl⟩ := List.getLast?_eq_some_iff.mp hl
      obtain ⟨d, bt, gs⟩ := lb
      cases bt with
      | AnonymousBlock =>
          show blockChildrenShape
              ((ys ++ [LayoutBox.mk d BoxType.AnonymousBlock gs]).dropLast ++
                [LayoutBox.mk d BoxType.AnonymousBlock (gs ++ [b])]) ∧
            boxesWf ((ys ++ [LayoutBox.mk d BoxType.AnonymousBlock gs]).dropLast ++
                [LayoutBox.mk d BoxType.AnonymousBlock (gs ++ [b])])
          rw [List.dropLast_concat]
          have holdanon := h3 (LayoutBox.mk d BoxType.AnonymousBlock gs)
            (List.mem_append_right ys (List.mem_singleton.mpr rfl)) rfl
          have hwf2 := (boxesWf_append ys _).mp hwf
          refine ⟨⟨?_, ?_, ?_⟩, ?_⟩
          · intro c hc
            rcases List.mem_append.mp hc with hc | hc
            · exact h1 c (List.mem_append_left _ hc)
            · rw [List.mem_singleton.mp hc]
              rfl
          · rcases List.chain'_append.mp h2 with ⟨hys, _, hbound⟩
            refine List.chain'_append.mpr ⟨hys, List.chain'_singleton _, ?_⟩
            intro x hx y hy
            rw [List.head?_cons, Option.mem_some_iff] at hy
            subst hy
            intro hxy
            exact hbound x hx (LayoutBox.mk d BoxType.AnonymousBlock gs)
              (by rw [List.head?_cons, Option.mem_some_iff]) ⟨hxy.1, rfl⟩
          · intro c hc hanon
            rcases List.mem_append.mp hc with hc | hc
            · exact h3 c (List.mem_append_left _ hc) hanon
            · rw [List.mem_singleton.mp hc]
              refine ⟨by simp [LayoutBox.children], ?_⟩
              intro g hg
              have hg2 : g ∈ gs ++ [b] := by simpa [LayoutBox.children] using hg
              rcases List.mem_append.mp hg2 with hg3 | hg3
              · exact holdanon.2 g (by simpa [LayoutBox.children] using hg3)
              · rw [List.mem_singleton.mp hg3]
                exact hb
          · refine (boxesWf_append ys _).mpr ⟨hwf2.1, ?_, trivial⟩
            have hlastwf : boxWf (LayoutBox.mk d BoxType.AnonymousBlock gs) :=
              hwf2.2.1
            obtain ⟨_, hgs⟩ := hlastwf
            exact ⟨trivial, (boxesWf_append gs [b]).mpr ⟨hgs, hbwf, trivial⟩⟩
      | BlockNode s =>
          show blockChildrenShape
              ((ys ++ [LayoutBox.mk d (BoxType.BlockNode s) gs]) ++
                [LayoutBox.mk defaultDimensions BoxType.AnonymousBlock [b]]) ∧
            boxesWf ((ys ++ [LayoutBox.mk d (BoxType.BlockNode s) gs]) ++
                [LayoutBox.mk defaultDimensions BoxType.AnonymousBlock [b]])
          refine ⟨⟨?_, ?_, ?_⟩, ?_⟩
          · intro c hc
            rcases List.mem_append.mp hc with hc | hc
            · exact h1 c hc
            · rw [List.mem_singleton.mp hc]
              rfl
          · refine List.chain'_append.mpr ⟨h2, List.chain'_singleton _, ?_⟩
            intro x hx y hy
            rw [List.head?_cons, Option.mem_some_iff] at hy
            subst hy
            rw [List.getLast?_concat, Option.mem_some_iff] at hx
            subst hx
            intro hxy
            exact Bool.noConfusion hxy.1
          · intro c hc hanon
            rcases List.mem_append.mp hc with hc | hc
            · exact h3 c hc hanon
            · rw [List.mem_singleton.mp hc]
              refine ⟨by simp [LayoutBox.children], ?_⟩
              intro g hg
              have hgb : g = b := List.mem_singleton.mp (by
                simpa [LayoutBox.children] using hg)
              rw [hgb]
              exact hb
          · refine (boxesWf_append _ _).mpr ⟨hwf, ?_, trivial⟩
            exact ⟨trivial, hbwf, trivial⟩
      | InlineNode s =>
          exfalso
          have := h1 (LayoutBox.mk d (BoxType.InlineNode s) gs)
            (List.mem_append_right ys (List.mem_singleton.mpr rfl))
          exact Bool.noConfusion this

/-- A successful build yields a box whose type records the styled node and
its display: Block display gives a `BlockNode` box, Inline an `InlineNode`
box — never an anonymous box. -/
theorem build_box_type (sn : StyledNode) (lb : LayoutBox)
    (h : build_layout_tree sn = some lb) :
    (lb.box_type = BoxType.BlockNode sn ∧ sn.display = Display.Block) ∨
    (lb.box_type = BoxType.InlineNode sn ∧ sn.display = Display.Inline) := by
  obtain ⟨n, sv, cs⟩ := sn
  revert h
  unfold build_layout_tree
  cases hd : StyledNode.display (StyledNode.mk n sv cs) with
  | None => intro h; exact Option.noConfusion h
  | Block =>
      cases hb : build_children true cs [] with
      | none => intro h; exact Option.noConfusion h
      | some bs =>
          intro h
          obtain rfl := Option.some.inj h
          exact Or.inl ⟨rfl, rfl⟩
  | Inline =>
      cases hb : build_children false cs [] with
      | none => intro h; exact Option.noConfusion h
      | some bs =>
          intro h
          obtain rfl := Option.some.inj h
          exact Or.inr ⟨rfl, rfl⟩

/-- A built box is never inline when its node displays Block, never anonymous
in any case. -/
theorem build_not_anon (sn : StyledNode) (lb : LayoutBox)
    (h : build_layout_tree sn = some lb) : isAnonBox lb = false := by
  rcases build_box_type sn lb h with ⟨hbt, _⟩ | ⟨hbt, _⟩ <;>
    obtain ⟨d, bt, cs⟩ := lb <;>
    simp only [LayoutBox.box_type] at hbt <;>
    rw [hbt] at * <;>
    rfl

mutual

/-- A successful build produces a well-formed tree. -/
theorem build_wf : ∀ (sn : StyledNode) (lb : LayoutBox),
    build_layout_tree sn = some lb → boxWf lb
  | StyledNode.mk n sv cs, lb => by
      show (match StyledNode.display (StyledNode.mk n sv cs) with
            | Display.None => none
            | Display.Block =>
                (build_children true cs []).map
                  (fun bs => LayoutBox.mk defaultDimensions
                    (BoxType.BlockNode (StyledNode.mk n sv cs)) bs)
            | Display.Inline =>
                (build_children false cs []).map
                  (fun bs => LayoutBox.mk defaultDimensions
                    (BoxType.InlineNode (StyledNode.mk n sv cs)) bs)) = some lb →
        boxWf lb
      cases hd : StyledNode.display (StyledNode.mk n sv cs) with
      | None => intro h; exact Option.noConfusion h
      | Block =>
          cases hb : build_children true cs [] with
          | none => intro h; exact Option.noConfusion h
          | some bs =>
              intro h
              obtain rfl := Option.some.inj h
              have hres := build_children_wf cs true [] bs hb trivial
                (fun _ => ⟨fun c hc => absurd hc (List.not_mem_nil c),
                  List.chain'_nil,
                  fun c hc => absurd hc (List.not_mem_nil c)⟩)
              exact ⟨hres.2 rfl, hres.1⟩
      | Inline =>
          cases hb : build_children false cs [] with
          | none => intro h; exact Option.noConfusion h
          | some bs =>
              intro h
              obtain rfl := Option.some.inj h
              have hres := build_children_wf cs false [] bs hb trivial
                (fun hflag => Bool.noConfusion hflag)
              exact ⟨trivial, hres.1⟩

/-- The child loop preserves well-formedness of the accumulated children and,
for a Block parent, the Block children shape. -/
theorem build_children_wf : ∀ (cs : List StyledNode) (flag : Bool)
    (acc res : List LayoutBox),
    build_children flag cs acc = some res →
    boxesWf acc → (flag = true → blockChildrenShape acc) →
    boxesWf res ∧ (flag = true → blockChildrenShape res)
  | [], flag, acc, res => by
      intro h hwf hshape
      obtain rfl := Option.some.inj h
      exact ⟨hwf, hshape⟩
  | child :: rest, flag, acc, res => by
      show (match child.display with
            | Display.None => build_children flag rest acc
            | Display.Block =>
                match build_layout_tree child with
                | some b => build_children flag rest (acc ++ [b])
                | none => none
            | Display.Inline =>
                match build_layout_tree child with
                | some b =>
                    build_children flag rest
                      (if flag then pushInline acc b else acc ++ [b])
                | none => none) = some res →
        boxesWf acc → (flag = true → blockChildrenShape acc) →
        boxesWf res ∧ (flag = true → blockChildrenShape res)
      cases hd : child.display with
      | None => exact fun h hwf hshape => build_children_wf rest flag acc res h hwf hshape
      | Block =>
          cases hbuild : build_layout_tree child with
          | none => intro h; exact Option.noConfusion h
          | some b =>
              intro h hwf hshape
              have hbwf := build_wf child b hbuild
              have hbty := build_box_type child b hbuild
              have hnotinline : isInlineBox b = false := by
                rcases hbty with ⟨hbt, _⟩ | ⟨_, hdisp⟩
                · obtain ⟨d, bt, gs⟩ := b
                  simp only [LayoutBox.box_type] at hbt
                  rw [hbt]
                  rfl
                · rw [hd] at hdisp
                  exact Display.noConfusion hdisp
              have hnotanon : isAnonBox b = false := build_not_anon child b hbuild
              refine build_children_wf rest flag (acc ++ [b]) res h
                ((boxesWf_append acc [b]).mpr ⟨hwf, hbwf, trivial⟩) ?_
              intro hflag
              exact blockChildrenShape_append acc b (hshape hflag)
                hnotinline hnotanon
      | Inline =>
          cases hbuild : build_layout_tree child with
          | none => intro h; exact Option.noConfusion h
          | some b =>
              intro h hwf hshape
              have hbwf := build_wf child b hbuild
              have hinline : isInlineBox b = true := by
                rcases build_box_type child b hbuild with ⟨_, hdisp⟩ | ⟨hbt, _⟩
                · rw [hd] at hdisp
                  exact Display.noConfusion hdisp
                · obtain ⟨d, bt, gs⟩ := b
                  simp only [LayoutBox.box_type] at hbt
                  rw [hbt]
                  rfl
              cases flag with
              | true =>
                  replace h : build_children true rest (pushInline acc b) = some res := by
                    simpa using h
                  have hpush := pushInline_wf acc b (hshape rfl) hwf hinline hbwf
                  refine build_children_wf rest true (pushInline acc b) res h
                    hpush.2 (fun _ => hpush.1)
              | false =>
                  replace h : build_children false rest (acc ++ [b]) = some res := by
                    simpa using h
                  refine build_children_wf rest false (acc ++ [b]) res h
                    ((boxesWf_append acc [b]).mpr ⟨hwf, hbwf, trivial⟩)
                    (fun hflag => Bool.noConfusion hflag)

end

/-- C5: every layout tree `build_layout_tree` produces is well-formed: no
Block box holds a bare Inline child, no two adjacent children of a Block box
are anonymous wrappers (so a run of consecutive inline children shares
exactly one `AnonymousBlock`), and every anonymous wrapper is nonempty and
holds only inline boxes. -/
theorem build_layout_tree_shape (sn : StyledNode) (lb : LayoutBox)
    (h : build_layout_tree sn = some lb) : boxWf lb :=
  build_wf sn lb h

/-- The layout tree of `sBlockRoot`: its two inline children (separated by a
dropped display:none child) share one anonymous wrapper. -/
def exLB : LayoutBox :=
  LayoutBox.mk defaultDimensions (BoxType.BlockNode sBlockRoot)
    [LayoutBox.mk defaultDimensions BoxType.AnonymousBlock
      [LayoutBox.mk defaultDimensions (BoxType.InlineNode sInlineA) [],
       LayoutBox.mk defaultDimensions (BoxType.InlineNode sInlineB) []]]

/-- Witness for C5 at a concrete input. -/
theorem build_layout_tree_shape_witness : boxWf exLB :=
  build_layout_tree_shape sBlockRoot exLB rfl

/-! ## C6: display:none subtrees leave no box -/

mutual

/-- The styled nodes referenced anywhere in a layout tree (anonymous boxes
reference none themselves). -/
def refNodes : LayoutBox → List StyledNode
  | LayoutBox.mk _ (BoxType.BlockNode s) cs => s :: refNodesList cs
  | LayoutBox.mk _ (BoxType.InlineNode s) cs => s :: refNodesList cs
  | LayoutBox.mk _ BoxType.AnonymousBlock cs => refNodesList cs

/-- The styled nodes referenced by a list of layout trees. -/
def refNodesList : List LayoutBox → List StyledNode
  | [] => []
  | c :: cs => refNodes c ++ refNodesList cs

end

mutual

/-- The spec's words, for comparison: the visible styled nodes — a node, and
recursively the visible nodes of those children whose display is not none;
the subtree under a display:none child is never entered. -/
def visibleNodes : StyledNode → List StyledNode
  | StyledNode.mk n sv cs => StyledNode.mk n sv cs :: visibleList cs

/-- Visible styled nodes contributed by a children list. -/
def visibleList : List StyledNode → List StyledNode
  | [] => []
  | c :: cs =>
      (if c.display ≠ Display.None then visibleNodes c else []) ++ visibleList cs

end

/-- Referenced nodes distribute over append. -/
theorem refNodesList_append : ∀ l1 l2 : List LayoutBox,
    refNodesList (l1 ++ l2) = refNodesList l1 ++ refNodesList l2
  | [], l2 => rfl
  | c :: l1, l2 => by
      show refNodes c ++ refNodesList (l1 ++ l2) =
        (refNodes c ++ refNodesList l1) ++ refNodesList l2
      rw [refNodesList_append l1 l2, List.append_assoc]

/-- Pushing an inline box into the trailing anonymous wrapper adds exactly
that box's referenced nodes. -/
theorem pushInline_refs (acc : List LayoutBox) (b : LayoutBox) :
    ∀ s, s ∈ refNodesList (pushInline acc b) →
      s ∈ refNodesList acc ∨ s ∈ refNodes b := by
  intro s hs
  unfold pushInline at hs
  cases hl : acc.getLast? with
  | none =>
      rw [hl] at hs
      have hnil : acc = [] := List.getLast?_eq_none_iff.mp hl
      subst hnil
      simp only [List.nil_append] at hs
      right
      have : refNodesList [LayoutBox.mk defaultDimensions BoxType.AnonymousBlock [b]] =
          (refNodes b ++ []) ++ [] := rfl
      rw [this] at hs
      simpa using hs
  | some lb =>
      rw [hl] at hs
      obtain ⟨ys, rfl⟩ := List.getLast?_eq_some_iff.mp hl
      obtain ⟨d, bt, gs⟩ := lb
      cases bt with
      | AnonymousBlock =>
          rw [List.dropLast_concat] at hs
          rw [refNodesList_append] at hs
          rcases List.mem_append.mp hs with hs | hs
          · left
            rw [refNodesList_append]
            exact List.mem_append_left _ hs
          · have : refNodesList [LayoutBox.mk d BoxType.AnonymousBlock (gs ++ [b])] =
                refNodesList (gs ++ [b]) ++ [] := rfl
            rw [this, List.append_nil, refNodesList_append] at hs
            rcases List.mem_append.mp hs with hs | hs
            · left
              rw [refNodesList_append]
              refine List.mem_append_right _ ?_
              show s ∈ refNodesList [LayoutBox.mk d BoxType.AnonymousBlock gs]
              have : refNodesList [LayoutBox.mk d BoxType.AnonymousBlock gs] =
                  refNodesList gs ++ [] := rfl
              rw [this, List.append_nil]
              exact hs
            · right
              have : refNodesList [b] = refNodes b ++ [] := rfl
              rw [this, List.append_nil] at hs
              exact hs
      | BlockNode t =>
          rw [refNodesList_append] at hs
          rcases List.mem_append.mp hs with hs | hs
          · exact Or.inl hs
          · right
            have : refNodesList [LayoutBox.mk defaultDimensions BoxType.AnonymousBlock [b]] =
                (refNodes b ++ []) ++ [] := rfl
            rw [this] at hs
            simpa using hs
      | InlineNode t =>
          rw [refNodesList_append] at hs
          rcases List.mem_append.mp hs with hs | hs
          · exact Or.inl hs
          · right
            have : refNodesList [LayoutBox.mk defaultDimensions BoxType.AnonymousBlock [b]] =
                (refNodes b ++ []) ++ [] := rfl
            rw [this] at hs
            simpa using hs

mutual

/-- Every styled node referenced in a built layout tree is visible from the
root: the build never enters a display:none subtree. -/
theorem build_refs : ∀ (sn : StyledNode) (lb : LayoutBox),
    build_layout_tree sn = some lb → ∀ s ∈ refNodes lb, s ∈ visibleNodes sn
  | StyledNode.mk n sv cs, lb => by
      show (match StyledNode.display (StyledNode.mk n sv cs) with
            | Display.None => none
            | Display.Block =>
                (build_children true cs []).map
                  (fun bs => LayoutBox.mk defaultDimensions
                    (BoxType.BlockNode (StyledNode.mk n sv cs)) bs)
            | Display.Inline =>
                (build_children false cs []).map
                  (fun bs => LayoutBox.mk defaultDimensions
                    (BoxType.InlineNode (StyledNode.mk n sv cs)) bs)) = some lb →
        ∀ s ∈ refNodes lb, s ∈ visibleNodes (StyledNode.mk n sv cs)
      cases hd : StyledNode.display (StyledNode.mk n sv cs) with
      | None => intro h; exact Option.noConfusion h
      | Block =>
          cases hb : build_children true cs [] with
          | none => intro h; exact Option.noConfusion h
          | some bs =>
              intro h s hs
              obtain rfl := Option.some.inj h
              show s ∈ StyledNode.mk n sv cs :: visibleList cs
              have hs2 : s = StyledNode.mk n sv cs ∨ s ∈ refNodesList bs := by
                simpa [refNodes] using hs
              rcases hs2 with rfl | hs2
              · exact List.mem_cons_self _ _
              · rcases build_children_refs cs true [] bs hb s hs2 with habs | hvis
                · exact absurd habs (List.not_mem_nil s)
                · exact List.mem_cons_of_mem _ hvis
      | Inline =>
          cases hb : build_children false cs [] with
          | none => intro h; exact Option.noConfusion h
          | some bs =>
              intro h s hs
              obtain rfl := Option.some.inj h
              show s ∈ StyledNode.mk n sv cs :: visibleList cs
              have hs2 : s = StyledNode.mk n sv cs ∨ s ∈ refNodesList bs := by
                simpa [refNodes] using hs
              rcases hs2 with rfl | hs2
              · exact List.mem_cons_self _ _
              · rcases build_children_refs cs false [] bs hb s hs2 with habs | hvis
                · exact absurd habs (List.not_mem_nil s)
                · exact List.mem_cons_of_mem _ hvis

/-- Loop version: a node referenced in the accumulated result was already in
the accumulator or is visible from one of the children. -/
theorem build_children_refs : ∀ (cs : List StyledNode) (flag : Bool)
    (acc res : List LayoutBox),
    build_children flag cs acc = some res →
    ∀ s ∈ refNodesList res, s ∈ refNodesList acc ∨ s ∈ visibleList cs
  | [], flag, acc, res => by
      intro h s hs
      obtain rfl := Option.some.inj h
      exact Or.inl hs
  | child :: rest, flag, acc, res => by
      show (match child.display with
            | Display.None => build_children flag rest acc
            | Display.Block =>
                match build_layout_tree child with
                | some b => build_children flag rest (acc ++ [b])
                | none => none
            | Display.Inline =>
                match build_layout_tree child with
                | some b =>
                    build_children flag rest
                      (if flag then pushInline acc b else acc ++ [b])
                | none => none) = some res →
        ∀ s ∈ refNodesList res, s ∈ refNodesList acc ∨ s ∈ visibleList (child :: rest)
      cases hd : child.display with
      | None =>
          intro h s hs
          rcases build_children_refs rest flag acc res h s hs with hacc | hvis
          · exact Or.inl hacc
          · right
            show s ∈ (if child.display ≠ Display.None then visibleNodes child else []) ++
              visibleList rest
            rw [hd]
            simpa using hvis
      | Block =>
          cases hbuild : build_layout_tree child with
          | none => intro h; exact Option.noConfusion h
          | some b =>
              intro h s hs
              rcases build_children_refs rest flag (acc ++ [b]) res h s hs with hacc | hvis
              · rw [refNodesList_append] at hacc
                rcases List.mem_append.mp hacc with hacc | hbmem
                · exact Or.inl hacc
                · right
                  show s ∈ (if child.display ≠ Display.None then visibleNodes child
                      else []) ++ visibleList rest
                  rw [hd]
                  refine List.mem_append_left _ ?_
                  simp only [ne_eq, reduceCtorEq, not_false_eq_true, if_pos]
                  refine build_refs child b hbuild s ?_
                  have : refNodesList [b] = refNodes b ++ [] := rfl
                  rw [this, List.append_nil] at hbmem
                  exact hbmem
              · right
                show s ∈ (if child.display ≠ Display.None then visibleNodes child
                    else []) ++ visibleList rest
                exact List.mem_append_right _ hvis
      | Inline =>
          cases hbuild : build_layout_tree child with
          | none => intro h; exact Option.noConfusion h
          | some b =>
              intro h s hs
              have hstep : ∀ acc2, build_children flag rest acc2 = some res →
                  s ∈ refNodesList res →
                  (s ∈ refNodesList acc2 ∨ s ∈ visibleList rest) :=
                fun acc2 h2 hs2 => build_children_refs rest flag acc2 res h2 s hs2
              cases flag with
              | true =>
                  replace h : build_children true rest (pushInline acc b) = some res := by
                    simpa using h
                  rcases hstep (pushInline acc b) h hs with hacc | hvis
                  · rcases pushInline_refs acc b s hacc with hacc2 | hbmem
                    · exact Or.inl hacc2
                    · right
                      show s ∈ (if child.display ≠ Display.None then visibleNodes child
                          else []) ++ visibleList rest
                      rw [hd]
                      refine List.mem_append_left _ ?_
                      simp only [ne_eq, reduceCtorEq, not_false_eq_true, if_pos]
                      exact build_refs child b hbuild s hbmem
                  · right
                    show s ∈ (if child.display ≠ Display.None then visibleNodes child
                        else []) ++ visibleList rest
                    exact List.mem_append_right _ hvis
              | false =>
                  replace h : build_children false rest (acc ++ [b]) = some res := by
                    simpa using h
                  rcases hstep (acc ++ [b]) h hs with hacc | hvis
                  · rw [refNodesList_append] at hacc
                    rcases List.mem_append.mp hacc with hacc | hbmem
                    · exact Or.inl hacc
                    · right
                      show s ∈ (if child.display ≠ Display.None then visibleNodes child
                          else []) ++ visibleList rest
                      rw [hd]
                      refine List.mem_append_left _ ?_
                      simp only [ne_eq, reduceCtorEq, not_false_eq_true, if_pos]
                      refine build_refs child b hbuild s ?_
                      have : refNodesList [b] = refNodes b ++ [] := rfl
                      rw [this, List.append_nil] at hbmem
                      exact hbmem
                  · right
                    show s ∈ (if child.display ≠ Display.None then visibleNodes child
                        else []) ++ visibleList rest
                    exact List.mem_append_right _ hvis

end

mutual

/-- Every node visible from a root whose display is not none itself has
display not none. -/
theorem visible_display : ∀ (sn : StyledNode),
    sn.display ≠ Display.None → ∀ s ∈ visibleNodes sn, s.display ≠ Display.None
  | StyledNode.mk n sv cs => by
      intro hroot s hs
      have hs2 : s = StyledNode.mk n sv cs ∨ s ∈ visibleList cs := by
        simpa [visibleNodes] using hs
      rcases hs2 with rfl | hs2
      · exact hroot
      · exact visibleList_display cs s hs2

/-- Every node visible through a children list has display not none: the
guard in `visibleList` ensures it. -/
theorem visibleList_display : ∀ (cs : List StyledNode),
    ∀ s ∈ visibleList cs, s.display ≠ Display.None
  | [] => by intro s hs; exact absurd hs (List.not_mem_nil s)
  | c :: cs => by
      intro s hs
      have hs2 : s ∈ (if c.display ≠ Display.None then visibleNodes c else []) ∨
          s ∈ visibleList cs := by
        simpa [visibleList] using (List.mem_append.mp hs)
      rcases hs2 with hs2 | hs2
      · by_cases hc : c.display ≠ Display.None
        · rw [if_pos hc] at hs2
          exact visible_display c hc s hs2
        · rw [if_neg hc] at hs2
          exact absurd hs2 (List.not_mem_nil s)
      · exact visibleList_display cs s hs2

end

/-- C6: in a successfully built layout tree, every referenced styled node is
visible — reachable from the root through children whose display is never
none — and in particular no referenced node has display none: a display:none
node and its whole subtree contribute no box. -/
theorem build_layout_tree_none_absent (sn : StyledNode) (lb : LayoutBox)
    (h : build_layout_tree sn = some lb) :
    ∀ s ∈ refNodes lb, s ∈ visibleNodes sn ∧ s.display ≠ Display.None := by
  intro s hs
  have hroot : sn.display ≠ Display.None := by
    intro hd
    obtain ⟨n, sv, cs⟩ := sn
    rw [show build_layout_tree (StyledNode.mk n sv cs) = none by
      simp [build_layout_tree, hd]] at h
    exact Option.noConfusion h
  have hvis := build_refs sn lb h s hs
  exact ⟨hvis, visible_display sn hroot s hvis⟩

/-- Witness for C6 at a concrete input: the root of `sBlockRoot`'s layout
tree. -/
theorem build_layout_tree_none_absent_witness :
    sBlockRoot ∈ visibleNodes sBlockRoot ∧ sBlockRoot.display ≠ Display.None :=
  build_layout_tree_none_absent sBlockRoot exLB rfl sBlockRoot
    (List.mem_cons_self _ _)
